import Mathlib

/-!
Shallow embedding of src/Screener.py: the indicator functions
(calculate_ema, calculate_rsi), the crossover check, the per-symbol scan
loop and the request handler.  Python floats are modelled as rationals;
a Python exception is modelled as Option.none (for the indicator
functions and the per-symbol fetch) or Except.error (for the symbol
list fetch at the top of the handler).
-/

namespace Screener

/-- Python negative index l[-1] on a nonempty list (all uses in the
source are guarded so the index is in range). -/
def pyLast (l : List ℚ) : ℚ := l.getD (l.length - 1) 0

/-- Python negative index l[-2] on a list of length at least 2 (all uses
in the source are guarded so the index is in range). -/
def pyPenult (l : List ℚ) : ℚ := l.getD (l.length - 2) 0

/-- Round-half-to-even on rationals, the rounding mode of Python's
builtin round. -/
def roundHalfEven (x : ℚ) : ℤ :=
  let f := ⌊x⌋
  let frac := x - f
  if frac < 1/2 then f
  else if 1/2 < frac then f + 1
  else if f % 2 = 0 then f else f + 1

/-- Python round(x, n) to n decimal places. -/
def pyRound (x : ℚ) (n : ℕ) : ℚ :=
  (roundHalfEven (x * 10 ^ n) : ℚ) / 10 ^ n

/-- The loop "for i in range(period, len(prices)): ema[i] = prices[i]*k +
ema[i-1]*(1-k)" from calculate_ema (src/Screener.py lines 13-14), with
the iteration count made explicit as fuel n: the Python loop runs
len(prices) - period iterations starting at i = period. -/
def emaLoop (prices : List ℚ) (k : ℚ) : ℕ → ℕ → List ℚ → List ℚ
  | 0, _, ema => ema
  | n + 1, i, ema =>
      emaLoop prices k n (i + 1)
        (ema.set i (prices.getD i 0 * k + ema.getD (i - 1) 0 * (1 - k)))

/-- calculate_ema from src/Screener.py lines 6-15.  Returns none exactly
when the Python code raises: the seed division sum(prices[:period]) /
period raises ZeroDivisionError iff period == 0 (the guard len(prices) <
period cannot trigger then, since len is nonnegative). -/
def calculate_ema (prices : List ℚ) (period : ℕ) : Option (List ℚ) :=
  if prices.length < period then some []
  else if period = 0 then none
  else
    let k : ℚ := 2 / ((period : ℚ) + 1)
    let seed : ℚ := (prices.take period).sum / (period : ℚ)
    let ema0 := (List.replicate prices.length (0 : ℚ)).set (period - 1) seed
    some (emaLoop prices k (prices.length - period) period ema0)

/-- The expression "avg_gain / avg_loss if avg_loss != 0 else 0" from
src/Screener.py lines 30 and 34. -/
def rsComputed (ag al : ℚ) : ℚ := if al ≠ 0 then ag / al else 0

/-- The expression "100 - (100 / (1 + rs)) if rs != 0 else 100" from
src/Screener.py line 35. -/
def rsiVal (rs : ℚ) : ℚ := if rs ≠ 0 then 100 - 100 / (1 + rs) else 100

/-- The loop "for i in range(len(changes))" of calculate_rsi
(src/Screener.py lines 28-36), with the iteration count as fuel n and
the running averages avg_gain, avg_loss threaded as ag, al. -/
def rsiLoop (gains losses : List ℚ) (period : ℕ) : ℕ → ℕ → ℚ → ℚ → List ℚ
  | 0, _, _, _ => []
  | n + 1, i, ag, al =>
      if i < period then
        rsiVal (rsComputed ag al) :: rsiLoop gains losses period n (i + 1) ag al
      else
        rsiVal (rsComputed ((ag * ((period : ℚ) - 1) + gains.getD i 0) / (period : ℚ))
            ((al * ((period : ℚ) - 1) + losses.getD i 0) / (period : ℚ))) ::
          rsiLoop gains losses period n (i + 1)
            ((ag * ((period : ℚ) - 1) + gains.getD i 0) / (period : ℚ))
            ((al * ((period : ℚ) - 1) + losses.getD i 0) / (period : ℚ))

/-- calculate_rsi from src/Screener.py lines 17-37.  Returns none exactly
when the Python code raises: the seed division sum(gains[:period]) /
period raises ZeroDivisionError iff period == 0 (reachable only when
len(prices) > period, since len(prices) <= period returns [] first). -/
def calculate_rsi (prices : List ℚ) (period : ℕ) : Option (List ℚ) :=
  if prices.length ≤ period then some []
  else if period = 0 then none
  else
    let changes := List.zipWith (fun a b => a - b) prices.tail prices
    let gains := changes.map (fun c => max c 0)
    let losses := changes.map (fun c => max (-c) 0)
    let avg_gain := (gains.take period).sum / (period : ℚ)
    let avg_loss := (losses.take period).sum / (period : ℚ)
    some (rsiLoop gains losses period changes.length 0 avg_gain avg_loss)

/-- The signal dictionary built in src/Screener.py lines 117-124. -/
structure Signal where
  symbol : String
  price : ℚ
  emaShort : ℚ
  emaLong : ℚ
  rsi : Option ℚ
  timeframe : String
deriving DecidableEq, Repr

/-- The fresh-crossover test of src/Screener.py line 116:
ema_s[-1] > ema_l[-1] and ema_s[-2] <= ema_l[-2]. -/
def crossover (ema_s ema_l : List ℚ) : Bool :=
  pyLast ema_l < pyLast ema_s && pyPenult ema_s ≤ pyPenult ema_l

/-- One iteration of the per-symbol loop, src/Screener.py lines 103-126.
The fetched argument is the outcome of fetch_klines: none models a raised
exception.  Any exception inside the try block (fetch, or a
ZeroDivisionError from an indicator call) is caught by the except on
line 125 and yields none (the symbol is skipped); in the Python code the
indicator calls run left to right and an earlier raise skips the later
calls, which has the same observable outcome (skip) as the simultaneous
match below. -/
def processSymbol (ema_short ema_long rsi_period : ℕ) (timeframe : String)
    (symbol : String) (fetched : Option (List ℚ)) : Option Signal :=
  match fetched with
  | none => none
  | some closes =>
    if closes.length < max ema_long rsi_period + 10 then none
    else
      match calculate_ema closes ema_short, calculate_ema closes ema_long,
            calculate_rsi closes rsi_period with
      | some ema_s, some ema_l, some rsi_vals =>
        if ema_s.length < 2 ∨ ema_l.length < 2 then none
        else if crossover ema_s ema_l then
          some ⟨symbol, pyLast closes, pyRound (pyLast ema_s) 4,
                pyRound (pyLast ema_l) 4,
                if rsi_vals.isEmpty then none
                else some (pyRound (pyLast rsi_vals) 2),
                timeframe⟩
        else none
      | _, _, _ => none

/-- The scan over "for symbol in symbols[:50]" accumulating signals,
src/Screener.py lines 100-126.  fetch models fetch_klines for the
requested exchange and timeframe. -/
def scanSymbols (ema_short ema_long rsi_period : ℕ) (timeframe : String)
    (fetch : String → Option (List ℚ)) (symbols : List String) : List Signal :=
  (symbols.take 50).filterMap
    (fun s => processSymbol ema_short ema_long rsi_period timeframe s (fetch s))

/-- The HTTP-shaped response built by handler: statusCode plus the body
fields that the claims consult (signals and count for the 200 body of
lines 128-139, error for the 400 body of lines 92-96 and the 500 body of
lines 142-146). -/
structure HttpResponse where
  statusCode : ℕ
  signals : Option (List Signal)
  count : Option ℕ
  error : Option String
deriving DecidableEq, Repr

/-- handler from src/Screener.py lines 81-146, with the two external
collaborators as parameters: symbolsResult is the outcome of
get_binance_symbols / get_bybit_symbols (Except.error models a raised
exception, which the outer except of line 141 turns into a 500), and
fetch is fetch_klines per symbol.  The validation of line 91 runs before
the symbol list is consulted. -/
def handler (ema_short ema_long rsi_period : ℕ) (timeframe : String)
    (symbolsResult : Except String (List String))
    (fetch : String → Option (List ℚ)) : HttpResponse :=
  if ema_long ≤ ema_short then
    ⟨400, none, none, some "EMA Short must be < EMA Long"⟩
  else
    match symbolsResult with
    | Except.error e => ⟨500, none, none, some e⟩
    | Except.ok symbols =>
      let signals := scanSymbols ema_short ema_long rsi_period timeframe fetch symbols
      ⟨200, some signals, some signals.length, none⟩

/-! Helper lemmas about list access and the EMA loop. -/

theorem getD_set_self (l : List ℚ) (i : ℕ) (a d : ℚ) (h : i < l.length) :
    (l.set i a).getD i d = a := by
  simp [List.getD_eq_getElem?_getD, List.getElem?_set_self h]

theorem getD_set_ne (l : List ℚ) (i j : ℕ) (a d : ℚ) (h : i ≠ j) :
    (l.set i a).getD j d = l.getD j d := by
  simp [List.getD_eq_getElem?_getD, List.getElem?_set_ne h]

theorem emaLoop_length (prices : List ℚ) (k : ℚ) (n : ℕ) :
    ∀ (i : ℕ) (ema : List ℚ), (emaLoop prices k n i ema).length = ema.length := by
  induction n with
  | zero => intro i ema; rfl
  | succ n ih => intro i ema; rw [emaLoop, ih, List.length_set]

theorem emaLoop_getD_lt (prices : List ℚ) (k : ℚ) (n : ℕ) :
    ∀ (i : ℕ) (ema : List ℚ) (j : ℕ), j < i →
      (emaLoop prices k n i ema).getD j 0 = ema.getD j 0 := by
  induction n with
  | zero => intro i ema j _; rfl
  | succ n ih =>
      intro i ema j hj
      rw [emaLoop, ih (i + 1) _ j (Nat.lt_succ_of_lt hj),
        getD_set_ne _ _ _ _ _ (ne_of_gt hj)]

theorem emaLoop_getD_rec (prices : List ℚ) (k : ℚ) (n : ℕ) :
    ∀ (i : ℕ) (ema : List ℚ), ema.length = prices.length →
      i + n = prices.length → 1 ≤ i → ∀ j, i ≤ j → j < prices.length →
      (emaLoop prices k n i ema).getD j 0 =
        prices.getD j 0 * k + (emaLoop prices k n i ema).getD (j - 1) 0 * (1 - k) := by
  induction n with
  | zero => intro i ema _ hin _ j hij hj; omega
  | succ n ih =>
      intro i ema hlen hin hi j hij hj
      rcases Nat.eq_or_lt_of_le hij with rfl | hlt
      · rw [emaLoop, emaLoop_getD_lt prices k n (i + 1) _ i (Nat.lt_succ_self i),
          emaLoop_getD_lt prices k n (i + 1) _ (i - 1) (by omega),
          getD_set_self _ _ _ _ (by omega), getD_set_ne _ _ _ _ _ (by omega)]
      · rw [emaLoop]
        exact ih (i + 1) _ (by rw [List.length_set]; exact hlen) (by omega)
          (by omega) j hlt hj

theorem calculate_ema_eq (prices : List ℚ) (P : ℕ) (hP : 1 ≤ P)
    (hL : P ≤ prices.length) :
    calculate_ema prices P =
      some (emaLoop prices (2 / ((P : ℚ) + 1)) (prices.length - P) P
        ((List.replicate prices.length (0 : ℚ)).set (P - 1)
          ((prices.take P).sum / (P : ℚ)))) := by
  rw [calculate_ema, if_neg (by omega), if_neg (by omega)]

theorem calculate_ema_length (prices e : List ℚ) (P : ℕ) (hP : 1 ≤ P)
    (hL : P ≤ prices.length) (h : calculate_ema prices P = some e) :
    e.length = prices.length := by
  rw [calculate_ema_eq prices P hP hL] at h
  injection h with h
  rw [← h, emaLoop_length, List.length_set, List.length_replicate]

theorem calculate_ema_getD_seed (prices e : List ℚ) (P : ℕ) (hP : 1 ≤ P)
    (hL : P ≤ prices.length) (h : calculate_ema prices P = some e) :
    e.getD (P - 1) 0 = (prices.take P).sum / (P : ℚ) := by
  rw [calculate_ema_eq prices P hP hL] at h
  injection h with h
  rw [← h, emaLoop_getD_lt _ _ _ _ _ _ (by omega),
    getD_set_self _ _ _ _ (by rw [List.length_replicate]; omega)]

theorem calculate_ema_getD_sentinel (prices e : List ℚ) (P : ℕ) (hP : 1 ≤ P)
    (hL : P ≤ prices.length) (h : calculate_ema prices P = some e) :
    ∀ i, i < P - 1 → e.getD i 0 = 0 := by
  intro i hi
  rw [calculate_ema_eq prices P hP hL] at h
  injection h with h
  rw [← h, emaLoop_getD_lt _ _ _ _ _ _ (by omega),
    getD_set_ne _ _ _ _ _ (by omega)]
  simp only [List.getD_eq_getElem?_getD, List.getElem?_replicate]
  split <;> rfl

theorem calculate_ema_getD_rec (prices e : List ℚ) (P : ℕ) (hP : 1 ≤ P)
    (hL : P ≤ prices.length) (h : calculate_ema prices P = some e) :
    ∀ i, P ≤ i → i < prices.length →
      e.getD i 0 = prices.getD i 0 * (2 / ((P : ℚ) + 1)) +
        e.getD (i - 1) 0 * (1 - 2 / ((P : ℚ) + 1)) := by
  intro i hPi hi
  rw [calculate_ema_eq prices P hP hL] at h
  injection h with h
  rw [← h]
  exact emaLoop_getD_rec prices _ _ P _
    (by rw [List.length_set, List.length_replicate]) (by omega) hP i hPi hi

/-- C1: calculate_ema on a series of length L with period P at least 1
returns the empty series when L < P; otherwise it returns a series of
length L whose entry at index P-1 is the arithmetic mean of the first P
prices, whose entries at indices below P-1 hold the sentinel 0, and
which satisfies the EMA recurrence with k = 2/(P+1) at every index i
with P <= i < L. -/
theorem calculate_ema_spec (prices : List ℚ) (P : ℕ) (hP : 1 ≤ P) :
    (prices.length < P → calculate_ema prices P = some []) ∧
    (P ≤ prices.length → ∃ e, calculate_ema prices P = some e ∧
      e.length = prices.length ∧
      e.getD (P - 1) 0 = (prices.take P).sum / (P : ℚ) ∧
      (∀ i, i < P - 1 → e.getD i 0 = 0) ∧
      (∀ i, P ≤ i → i < prices.length →
        e.getD i 0 = prices.getD i 0 * (2 / ((P : ℚ) + 1)) +
          e.getD (i - 1) 0 * (1 - 2 / ((P : ℚ) + 1)))) := by
  constructor
  · intro hlt
    rw [calculate_ema, if_pos hlt]
  · intro hL
    refine ⟨_, calculate_ema_eq prices P hP hL, ?_, ?_, ?_, ?_⟩
    · exact calculate_ema_length prices _ P hP hL (calculate_ema_eq prices P hP hL)
    · exact calculate_ema_getD_seed prices _ P hP hL (calculate_ema_eq prices P hP hL)
    · exact calculate_ema_getD_sentinel prices _ P hP hL (calculate_ema_eq prices P hP hL)
    · exact calculate_ema_getD_rec prices _ P hP hL (calculate_ema_eq prices P hP hL)

/-- Witness for C1 at prices [1, 3, 5] and period 2. -/
theorem calculate_ema_spec_witness :
    (([1, 3, 5] : List ℚ).length < 2 → calculate_ema [1, 3, 5] 2 = some []) ∧
    (2 ≤ ([1, 3, 5] : List ℚ).length → ∃ e, calculate_ema [1, 3, 5] 2 = some e ∧
      e.length = ([1, 3, 5] : List ℚ).length ∧
      e.getD (2 - 1) 0 = (([1, 3, 5] : List ℚ).take 2).sum / ((2 : ℕ) : ℚ) ∧
      (∀ i, i < 2 - 1 → e.getD i 0 = 0) ∧
      (∀ i, 2 ≤ i → i < ([1, 3, 5] : List ℚ).length →
        e.getD i 0 = ([1, 3, 5] : List ℚ).getD i 0 * (2 / (((2 : ℕ) : ℚ) + 1)) +
          e.getD (i - 1) 0 * (1 - 2 / (((2 : ℕ) : ℚ) + 1)))) :=
  calculate_ema_spec [1, 3, 5] 2 (by decide)

theorem getD_replicate (L : ℕ) (V : ℚ) (i : ℕ) (h : i < L) :
    (List.replicate L V).getD i 0 = V := by
  simp [List.getD_eq_getElem?_getD, List.getElem?_replicate, h]

/-- C6: for period P at least 1 and a constant price series of value V
of length L at least P, every entry of calculate_ema at an index at or
after the seed index P-1 equals V. -/
theorem calculate_ema_const (V : ℚ) (L P : ℕ) (hP : 1 ≤ P) (hL : P ≤ L) :
    ∃ e, calculate_ema (List.replicate L V) P = some e ∧ e.length = L ∧
      ∀ i, P - 1 ≤ i → i < L → e.getD i 0 = V := by
  have hlen : (List.replicate L V).length = L := List.length_replicate L V
  have hL' : P ≤ (List.replicate L V).length := by omega
  have hPQ : ((P : ℚ)) ≠ 0 := Nat.cast_ne_zero.mpr (by omega)
  obtain ⟨e, heq⟩ : ∃ e, calculate_ema (List.replicate L V) P = some e :=
    ⟨_, calculate_ema_eq _ P hP hL'⟩
  refine ⟨e, heq, by rw [calculate_ema_length _ _ P hP hL' heq, hlen], ?_⟩
  have hsum : (List.take P (List.replicate L V)).sum / (P : ℚ) = V := by
    rw [List.take_replicate, min_eq_left hL, List.sum_replicate, nsmul_eq_mul]
    field_simp
  have hseed : e.getD (P - 1) 0 = V := by
    rw [calculate_ema_getD_seed _ _ P hP hL' heq, hsum]
  intro i hi
  induction i, hi using Nat.le_induction with
  | base => intro _; exact hseed
  | succ n hn ih =>
      intro h1
      have hrec := calculate_ema_getD_rec _ _ P hP hL' heq (n + 1)
        (by omega) (by omega)
      rw [Nat.add_sub_cancel] at hrec
      rw [hrec, getD_replicate L V (n + 1) h1, ih (by omega)]
      ring

/-- Witness for C6 at value 7, length 3 and period 2. -/
theorem calculate_ema_const_witness :
    ∃ e, calculate_ema (List.replicate 3 (7 : ℚ)) 2 = some e ∧ e.length = 3 ∧
      ∀ i, 2 - 1 ≤ i → i < 3 → e.getD i 0 = 7 :=
  calculate_ema_const 7 3 2 (by decide) (by decide)

/-! Helper lemmas about the RSI loop. -/

theorem getD_nonneg (l : List ℚ) (h : ∀ x ∈ l, 0 ≤ x) (j : ℕ) : 0 ≤ l.getD j 0 := by
  rcases lt_or_le j l.length with hj | hj
  · rw [List.getD_eq_getElem l 0 hj]
    exact h _ (List.getElem_mem hj)
  · rw [List.getD_eq_default l 0 hj]

theorem getD_eq_zero (l : List ℚ) (h : ∀ x ∈ l, x = 0) (j : ℕ) : l.getD j 0 = 0 := by
  rcases lt_or_le j l.length with hj | hj
  · rw [List.getD_eq_getElem l 0 hj]
    exact h _ (List.getElem_mem hj)
  · rw [List.getD_eq_default l 0 hj]

theorem rsiLoop_length (gains losses : List ℚ) (period : ℕ) (n : ℕ) :
    ∀ (i : ℕ) (ag al : ℚ), (rsiLoop gains losses period n i ag al).length = n := by
  induction n with
  | zero => intro i ag al; rfl
  | succ n ih =>
      intro i ag al
      rw [rsiLoop]
      split <;> rw [List.length_cons, ih]

theorem rsiVal_bounds (rs : ℚ) (h : 0 ≤ rs) : 0 ≤ rsiVal rs ∧ rsiVal rs ≤ 100 := by
  rw [rsiVal]
  split
  · have h1 : (0 : ℚ) < 1 + rs := by linarith
    have h2 : 100 / (1 + rs) ≤ 100 := div_le_self (by norm_num) (by linarith)
    have h3 : 0 < 100 / (1 + rs) := by positivity
    constructor <;> linarith
  · norm_num

theorem rsComputed_nonneg (ag al : ℚ) (hag : 0 ≤ ag) (hal : 0 ≤ al) :
    0 ≤ rsComputed ag al := by
  rw [rsComputed]
  split
  · exact div_nonneg hag hal
  · exact le_refl 0

theorem rsiLoop_bounds (gains losses : List ℚ) (period : ℕ) (hP : 1 ≤ period)
    (hg : ∀ j, 0 ≤ gains.getD j 0) (hl : ∀ j, 0 ≤ losses.getD j 0) (n : ℕ) :
    ∀ (i : ℕ) (ag al : ℚ), 0 ≤ ag → 0 ≤ al →
      ∀ x ∈ rsiLoop gains losses period n i ag al, 0 ≤ x ∧ x ≤ 100 := by
  have hP1 : (1 : ℚ) ≤ (period : ℚ) := by exact_mod_cast hP
  induction n with
  | zero => intro i ag al _ _ x hx; exact absurd hx (List.not_mem_nil x)
  | succ n ih =>
      intro i ag al hag hal x hx
      rw [rsiLoop] at hx
      split at hx
      · rcases List.mem_cons.mp hx with rfl | hx'
        · exact rsiVal_bounds _ (rsComputed_nonneg ag al hag hal)
        · exact ih (i + 1) ag al hag hal x hx'
      · have hag2 : 0 ≤ (ag * ((period : ℚ) - 1) + gains.getD i 0) / (period : ℚ) :=
          div_nonneg (add_nonneg (mul_nonneg hag (by linarith)) (hg i)) (by positivity)
        have hal2 : 0 ≤ (al * ((period : ℚ) - 1) + losses.getD i 0) / (period : ℚ) :=
          div_nonneg (add_nonneg (mul_nonneg hal (by linarith)) (hl i)) (by positivity)
        rcases List.mem_cons.mp hx with rfl | hx'
        · exact rsiVal_bounds _ (rsComputed_nonneg _ _ hag2 hal2)
        · exact ih (i + 1) _ _ hag2 hal2 x hx'

theorem rsiVal_rsComputed_100 (ag al : ℚ) (h : al = 0 ∨ ag = 0) :
    rsiVal (rsComputed ag al) = 100 := by
  have hrs : rsComputed ag al = 0 := by
    rw [rsComputed]
    rcases h with rfl | rfl
    · simp
    · split <;> simp
  rw [hrs, rsiVal]
  simp

theorem rsiLoop_zero_gains (gains losses : List ℚ) (period : ℕ)
    (hg : ∀ j, gains.getD j 0 = 0) (n : ℕ) :
    ∀ (i : ℕ) (al : ℚ),
      rsiLoop gains losses period n i 0 al = List.replicate n 100 := by
  induction n with
  | zero => intro i al; rfl
  | succ n ih =>
      intro i al
      rw [rsiLoop, List.replicate_succ]
      split
      · rw [rsiVal_rsComputed_100 0 al (Or.inr rfl), ih]
      · rw [zero_mul, zero_add, hg i, zero_div,
          rsiVal_rsComputed_100 0 _ (Or.inr rfl), ih]

theorem calculate_rsi_eq (prices : List ℚ) (P : ℕ) (hP : 1 ≤ P)
    (hL : P < prices.length) :
    calculate_rsi prices P = some (rsiLoop
      ((List.zipWith (fun a b => a - b) prices.tail prices).map (fun c => max c 0))
      ((List.zipWith (fun a b => a - b) prices.tail prices).map (fun c => max (-c) 0))
      P (List.zipWith (fun a b => a - b) prices.tail prices).length 0
      ((((List.zipWith (fun a b => a - b) prices.tail prices).map
          (fun c => max c 0)).take P).sum / (P : ℚ))
      ((((List.zipWith (fun a b => a - b) prices.tail prices).map
          (fun c => max (-c) 0)).take P).sum / (P : ℚ))) := by
  rw [calculate_rsi, if_neg (by omega), if_neg (by omega)]

/-- C2: the per-bar RSI value is exactly 100 whenever RS is 0, which
holds whenever the current average loss is 0 and also whenever the
current average gain is 0; in particular on a strictly monotonically
decreasing price series (all gains zero) every value of the RSI series
returned by calculate_rsi equals 100. -/
theorem calculate_rsi_rs_zero :
    (∀ ag al : ℚ, al = 0 ∨ ag = 0 → rsiVal (rsComputed ag al) = 100) ∧
    (∀ (prices : List ℚ) (P : ℕ), 1 ≤ P → P < prices.length →
      (∀ i, i < prices.length - 1 →
        prices.getD (i + 1) 0 < prices.getD i 0) →
      calculate_rsi prices P = some (List.replicate (prices.length - 1) 100)) := by
  refine ⟨rsiVal_rsComputed_100, ?_⟩
  intro prices P hP hL hdec
  have hchlen : (List.zipWith (fun a b => a - b) prices.tail prices).length
      = prices.length - 1 := by
    rw [List.length_zipWith, List.length_tail]
    exact min_eq_left (by omega)
  have hchanges_neg :
      ∀ x ∈ List.zipWith (fun a b => a - b) prices.tail prices, x < 0 := by
    intro x hx
    rcases List.mem_iff_getElem.mp hx with ⟨j, hj, hxe⟩
    rw [List.getElem_zipWith, List.getElem_tail] at hxe
    have hj' : j < prices.length - 1 := by rw [hchlen] at hj; exact hj
    have hd := hdec j hj'
    rw [List.getD_eq_getElem prices 0 (by omega),
      List.getD_eq_getElem prices 0 (by omega)] at hd
    rw [← hxe]
    simpa using sub_neg.mpr hd
  have hgzero : ∀ x ∈ (List.zipWith (fun a b => a - b) prices.tail prices).map
      (fun c => max c 0), x = 0 := by
    intro x hx
    rcases List.mem_map.mp hx with ⟨c, hc, rfl⟩
    exact max_eq_right (le_of_lt (hchanges_neg c hc))
  have hsum : ((((List.zipWith (fun a b => a - b) prices.tail prices).map
      (fun c => max c 0)).take P).sum : ℚ) = 0 :=
    List.sum_eq_zero (fun x hx => hgzero x (List.mem_of_mem_take hx))
  rw [calculate_rsi_eq prices P hP hL, hsum, zero_div,
    rsiLoop_zero_gains _ _ P (getD_eq_zero _ hgzero), hchlen]

/-- Witness for C2 at the strictly decreasing series [3, 2, 1] with
period 1. -/
theorem calculate_rsi_rs_zero_witness :
    calculate_rsi [3, 2, 1] 1 =
      some (List.replicate (([3, 2, 1] : List ℚ).length - 1) 100) :=
  calculate_rsi_rs_zero.2 [3, 2, 1] 1 (by decide) (by decide) (by decide)

/-- C7: every element of a series returned by calculate_rsi lies in the
closed interval 0 to 100: the smoothed averages stay non-negative, so RS
is non-negative, the formula value 100 - 100/(1+RS) lies strictly
between 0 and 100 when RS is positive, and the RS = 0 branch yields
exactly 100. -/
theorem calculate_rsi_bounded (prices : List ℚ) (P : ℕ) (out : List ℚ)
    (h : calculate_rsi prices P = some out) : ∀ x ∈ out, 0 ≤ x ∧ x ≤ 100 := by
  rcases le_or_lt prices.length P with hle | hgt
  · rw [calculate_rsi, if_pos hle] at h
    injection h with h
    rw [← h]
    intro x hx
    exact absurd hx (List.not_mem_nil x)
  · rcases Nat.eq_zero_or_pos P with rfl | hP
    · rw [calculate_rsi, if_neg (by omega), if_pos rfl] at h
      exact Option.noConfusion h
    · rw [calculate_rsi_eq prices P hP hgt] at h
      injection h with h
      rw [← h]
      have hg : ∀ x ∈ (List.zipWith (fun a b => a - b) prices.tail prices).map
          (fun c => max c 0), 0 ≤ x := by
        intro x hx
        rcases List.mem_map.mp hx with ⟨c, _, rfl⟩
        exact le_max_right c 0
      have hl : ∀ x ∈ (List.zipWith (fun a b => a - b) prices.tail prices).map
          (fun c => max (-c) 0), 0 ≤ x := by
        intro x hx
        rcases List.mem_map.mp hx with ⟨c, _, rfl⟩
        exact le_max_right (-c) 0
      apply rsiLoop_bounds _ _ P hP (getD_nonneg _ hg) (getD_nonneg _ hl)
      · exact div_nonneg
          (List.sum_nonneg (fun x hx => hg x (List.mem_of_mem_take hx)))
          (by positivity)
      · exact div_nonneg
          (List.sum_nonneg (fun x hx => hl x (List.mem_of_mem_take hx)))
          (by positivity)

/-- Witness for C7 at prices [1, 2] and period 1, whose RSI series is
the singleton [100]. -/
theorem calculate_rsi_bounded_witness : 0 ≤ (100 : ℚ) ∧ (100 : ℚ) ≤ 100 :=
  calculate_rsi_bounded [1, 2] 1 [100] (by with_unfolding_all rfl) 100
    (by simp)

/-- C3: for a symbol that passes the data-length gate and the
series-length gate (and whose indicator calls succeed), a Signal is
emitted if and only if the last short-EMA value is strictly above the
last long-EMA value while the second-to-last short-EMA value is at or
below the second-to-last long-EMA value; moreover the crossover test
detects trailing values short [1, 1, 3] against long [2, 2, 2] and
rejects short [3, 3, 3] against long [2, 2, 2]. -/
theorem processSymbol_crossover_iff (es el rp : ℕ) (tf sym : String)
    (closes ema_s ema_l rsi_vals : List ℚ)
    (hlen : ¬ closes.length < max el rp + 10)
    (hs : calculate_ema closes es = some ema_s)
    (hl : calculate_ema closes el = some ema_l)
    (hr : calculate_rsi closes rp = some rsi_vals)
    (h2 : ¬ (ema_s.length < 2 ∨ ema_l.length < 2)) :
    ((∃ sig, processSymbol es el rp tf sym (some closes) = some sig) ↔
      (pyLast ema_l < pyLast ema_s ∧ pyPenult ema_s ≤ pyPenult ema_l)) ∧
    crossover [1, 1, 3] [2, 2, 2] = true ∧
    crossover [3, 3, 3] [2, 2, 2] = false := by
  refine ⟨?_, by decide, by decide⟩
  simp only [processSymbol, hs, hl, hr]
  rw [if_neg hlen, if_neg h2]
  by_cases hc : crossover ema_s ema_l = true
  · rw [if_pos hc]
    simp only [crossover, Bool.and_eq_true, decide_eq_true_eq] at hc
    exact iff_of_true ⟨_, rfl⟩ hc
  · rw [if_neg hc]
    simp only [crossover, Bool.and_eq_true, decide_eq_true_eq] at hc
    refine iff_of_false ?_ hc
    rintro ⟨sig, hsig⟩
    exact Option.noConfusion hsig

/-- Witness for C3 at a constant price series of length 12 with periods
1 and 2 and RSI period 1. -/
theorem processSymbol_crossover_iff_witness :
    ((∃ sig, processSymbol 1 2 1 "1m" "X" (some (List.replicate 12 1)) = some sig) ↔
      (pyLast ((0 : ℚ) :: List.replicate 11 1) < pyLast (List.replicate 12 1) ∧
        pyPenult (List.replicate 12 1) ≤ pyPenult ((0 : ℚ) :: List.replicate 11 1))) ∧
    crossover [1, 1, 3] [2, 2, 2] = true ∧
    crossover [3, 3, 3] [2, 2, 2] = false :=
  processSymbol_crossover_iff 1 2 1 "1m" "X" (List.replicate 12 1)
    (List.replicate 12 1) ((0 : ℚ) :: List.replicate 11 1) (List.replicate 11 100)
    (by decide) (by with_unfolding_all rfl) (by with_unfolding_all rfl)
    (by with_unfolding_all rfl) (by decide)

/-- Auxiliary: filtering out elements that the mapping sends to none
does not change the result of filterMap. -/
theorem filterMap_filter_eq (f : String → Option Signal) (p : String → Bool)
    (l : List String) (h : ∀ a, p a = false → f a = none) :
    l.filterMap f = (l.filter p).filterMap f := by
  induction l with
  | nil => rfl
  | cons a l ih =>
      rw [List.filterMap_cons, List.filter_cons]
      cases hp : p a
      · rw [h a hp, if_neg (by simp), ih]
      · rw [if_pos rfl, List.filterMap_cons, ih]

/-- C4: a symbol whose candle fetch raises, or whose indicator
computation raises (any of the three indicator calls, e.g. the
ZeroDivisionError of a period-0 EMA), is skipped: its per-symbol
outcome is none, the exception being caught inside the loop, and the
scan result equals the signals collected from all the other scanned
symbols; no per-symbol exception escapes the scan. -/
theorem scan_isolation (es el rp : ℕ) (tf : String)
    (fetch : String → Option (List ℚ)) (symbols : List String) (X : String)
    (hX : fetch X = none ∨ ∃ closes, fetch X = some closes ∧
      (calculate_ema closes es = none ∨ calculate_ema closes el = none ∨
        calculate_rsi closes rp = none)) :
    processSymbol es el rp tf X (fetch X) = none ∧
    scanSymbols es el rp tf fetch symbols =
      ((symbols.take 50).filter (fun s => s ≠ X)).filterMap
        (fun s => processSymbol es el rp tf s (fetch s)) := by
  have hXnone : processSymbol es el rp tf X (fetch X) = none := by
    rcases hX with hX | ⟨closes, hfetch, hind⟩
    · rw [hX, processSymbol]
    · rw [hfetch, processSymbol]
      by_cases hlen : closes.length < max el rp + 10
      · rw [if_pos hlen]
      · rw [if_neg hlen]
        rcases hs : calculate_ema closes es with _ | ema_s
        · rfl
        rcases hl : calculate_ema closes el with _ | ema_l
        · rfl
        rcases hr : calculate_rsi closes rp with _ | rsi_vals
        · rfl
        rcases hind with h | h | h
        · rw [hs] at h
          exact Option.noConfusion h
        · rw [hl] at h
          exact Option.noConfusion h
        · rw [hr] at h
          exact Option.noConfusion h
  refine ⟨hXnone, ?_⟩
  rw [scanSymbols]
  apply filterMap_filter_eq
  intro a ha
  have haX : a = X := by simpa using ha
  rw [haX]
  exact hXnone

/-- Witness for C4 with a fetch that succeeds with 12 constant closes
while the short-EMA computation raises (period 0). -/
theorem scan_isolation_witness :
    processSymbol 0 2 1 "1m" "A" (some (List.replicate 12 1)) = none ∧
    scanSymbols 0 2 1 "1m" (fun _ => some (List.replicate 12 1)) ["A", "B"] =
      ((["A", "B"].take 50).filter (fun s => s ≠ "A")).filterMap
        (fun s => processSymbol 0 2 1 "1m" s (some (List.replicate 12 1))) :=
  scan_isolation 0 2 1 "1m" (fun _ => some (List.replicate 12 1)) ["A", "B"]
    "A" (Or.inr ⟨List.replicate 12 1, rfl, Or.inl (by decide)⟩)

/-- C5: a request with emaShort at least emaLong is answered with the
400 validation response, whatever the symbol source and the candle
source would return: no symbol list is consulted, no candles are
fetched and no signals are computed. -/
theorem handler_validation (es el rp : ℕ) (tf : String)
    (symbolsResult : Except String (List String))
    (fetch : String → Option (List ℚ)) (h : el ≤ es) :
    handler es el rp tf symbolsResult fetch =
      ⟨400, none, none, some "EMA Short must be < EMA Long"⟩ := by
  rw [handler.eq_def, if_pos h]

/-- Witness for C5 at emaShort 30, emaLong 10. -/
theorem handler_validation_witness :
    handler 30 10 14 "1m" (Except.ok ["BTCUSDT"]) (fun _ => none) =
      ⟨400, none, none, some "EMA Short must be < EMA Long"⟩ :=
  handler_validation 30 10 14 "1m" (Except.ok ["BTCUSDT"]) (fun _ => none)
    (by decide)

/-- C8: for a valid request (1 <= emaShort < emaLong) and a close series
passing the lookback gate, both EMA computations succeed, both series
have the length of the close series, and the indices read by the
crossover check (length - 1 and length - 2 of each series) are at or
after the seed index period - 1, so the sentinel zeros in the first
period - 1 slots are never read by the comparison. -/
theorem ema_tail_indices_valid (es el rp : ℕ) (closes : List ℚ)
    (hes : 1 ≤ es) (hlt : es < el) (hlen : max el rp + 10 ≤ closes.length) :
    ∃ e_s e_l, calculate_ema closes es = some e_s ∧
      calculate_ema closes el = some e_l ∧
      e_s.length = closes.length ∧ e_l.length = closes.length ∧
      es - 1 ≤ e_s.length - 2 ∧ es - 1 ≤ e_s.length - 1 ∧
      el - 1 ≤ e_l.length - 2 ∧ el - 1 ≤ e_l.length - 1 := by
  have hml := le_max_left el rp
  have hse : es ≤ closes.length := by omega
  have hle : el ≤ closes.length := by omega
  have hqs := calculate_ema_eq closes es hes hse
  have hql := calculate_ema_eq closes el (by omega) hle
  have hls := calculate_ema_length closes _ es hes hse hqs
  have hll := calculate_ema_length closes _ el (by omega) hle hql
  exact ⟨_, _, hqs, hql, hls, hll, by omega, by omega, by omega, by omega⟩

/-- Witness for C8 at periods 1 and 2 with RSI period 1 and a constant
close series of length 12. -/
theorem ema_tail_indices_valid_witness :
    ∃ e_s e_l, calculate_ema (List.replicate 12 1) 1 = some e_s ∧
      calculate_ema (List.replicate 12 1) 2 = some e_l ∧
      e_s.length = (List.replicate 12 (1 : ℚ)).length ∧
      e_l.length = (List.replicate 12 (1 : ℚ)).length ∧
      1 - 1 ≤ e_s.length - 2 ∧ 1 - 1 ≤ e_s.length - 1 ∧
      2 - 1 ≤ e_l.length - 2 ∧ 2 - 1 ≤ e_l.length - 1 :=
  ema_tail_indices_valid 1 2 1 (List.replicate 12 1)
    (by decide) (by decide) (by decide)

theorem calculate_rsi_length (prices : List ℚ) (P : ℕ) (out : List ℚ)
    (hP : 1 ≤ P) (hL : P < prices.length)
    (h : calculate_rsi prices P = some out) :
    out.length = prices.length - 1 := by
  rw [calculate_rsi_eq prices P hP hL] at h
  injection h with h
  rw [← h, rsiLoop_length, List.length_zipWith, List.length_tail]
  exact min_eq_left (by omega)

/-- C9: with rsiPeriod at least 1, every Signal actually emitted by the
per-symbol step carries an rsi value rounded to 2 decimal places, never
the null fallback: the lookback gate forces the close series past the
RSI length threshold, so the RSI series is non-empty. -/
theorem emitted_signal_rsi_number (es el rp : ℕ) (tf sym : String)
    (fetched : Option (List ℚ)) (sig : Signal) (hrp : 1 ≤ rp)
    (h : processSymbol es el rp tf sym fetched = some sig) :
    ∃ r, sig.rsi = some (pyRound r 2) := by
  cases fetched with
  | none => exact Option.noConfusion h
  | some closes =>
    by_cases hlen : closes.length < max el rp + 10
    · rw [processSymbol, if_pos hlen] at h
      exact Option.noConfusion h
    · have hmr := le_max_right el rp
      rcases hs : calculate_ema closes es with _ | ema_s <;>
        rcases hl : calculate_ema closes el with _ | ema_l <;>
          rcases hr : calculate_rsi closes rp with _ | rsi_vals <;>
            simp only [processSymbol, hs, hl, hr, if_neg hlen] at h <;>
              try exact Option.noConfusion h
      have hrl := calculate_rsi_length closes rp rsi_vals hrp (by omega) hr
      have hne : rsi_vals.isEmpty = false := by
        rcases he : rsi_vals.isEmpty with _ | _
        · rfl
        · rw [List.isEmpty_iff.mp he] at hrl
          simp only [List.length_nil] at hrl
          omega
      by_cases h2 : ema_s.length < 2 ∨ ema_l.length < 2
      · rw [if_pos h2] at h
        exact Option.noConfusion h
      · rw [if_neg h2] at h
        by_cases hc : crossover ema_s ema_l = true
        · rw [if_pos hc] at h
          injection h with h
          rw [← h]
          exact ⟨pyLast rsi_vals, by rw [hne]; rfl⟩
        · rw [if_neg hc] at h
          exact Option.noConfusion h

/-- Witness for C9 at a close series of length 12 ending in an upward
jump, which emits a signal with rsi 100 under periods 1 and 2. -/
theorem emitted_signal_rsi_number_witness :
    ∃ r, (Signal.mk "X" 9 9 (63333/10000) (some 100) "1m").rsi =
      some (pyRound r 2) :=
  emitted_signal_rsi_number 1 2 1 "1m" "X"
    (some [1, 1, 1, 1, 1, 1, 1, 1, 1, 1, 1, 9])
    (Signal.mk "X" 9 9 (63333/10000) (some 100) "1m")
    (by decide)
    (by set_option maxRecDepth 10000 in with_unfolding_all rfl)

/-- C10: the validation only compares emaShort with emaLong, so a
request with emaShort 0 and emaLong at least 1 passes it; calculate_ema
with period 0 raises (ZeroDivisionError at the seed division) on every
close series, the per-symbol handler catches it, every symbol is
skipped, and the scan returns status 200 with an empty signal list and
count 0 rather than a validation failure. -/
theorem handler_zero_ema_short (el rp : ℕ) (tf : String)
    (symbols : List String) (fetch : String → Option (List ℚ))
    (hel : 1 ≤ el) :
    (∀ closes : List ℚ, calculate_ema closes 0 = none) ∧
    handler 0 el rp tf (Except.ok symbols) fetch =
      ⟨200, some [], some 0, none⟩ := by
  have hema : ∀ closes : List ℚ, calculate_ema closes 0 = none := by
    intro closes
    rw [calculate_ema, if_neg (by omega), if_pos rfl]
  refine ⟨hema, ?_⟩
  have hscan : scanSymbols 0 el rp tf fetch symbols = [] := by
    rw [scanSymbols, List.filterMap_eq_nil_iff]
    intro s _
    cases hf : fetch s with
    | none => rw [processSymbol]
    | some closes =>
        rw [processSymbol]
        by_cases hlen2 : closes.length < max el rp + 10
        · rw [if_pos hlen2]
        · rw [if_neg hlen2, hema closes]
  rw [handler.eq_def, if_neg (by omega)]
  dsimp only
  rw [hscan]
  rfl

/-- Witness for C10 at emaLong 1, rsiPeriod 14 and a single symbol with
a plentiful constant close series. -/
theorem handler_zero_ema_short_witness :
    (∀ closes : List ℚ, calculate_ema closes 0 = none) ∧
    handler 0 1 14 "1m" (Except.ok ["BTCUSDT"])
      (fun _ => some (List.replicate 30 1)) =
      ⟨200, some [], some 0, none⟩ :=
  handler_zero_ema_short 1 14 "1m" ["BTCUSDT"]
    (fun _ => some (List.replicate 30 1)) (by decide)

end Screener
